import Mathlib

set_option maxRecDepth 16000

/-!
Verification of the gazouilli audio-to-notes converter.

This file gives a shallow embedding of the pure core of the repository
(quantizer, run-length segmenter, note filters, and the MIDI serializer
helpers) and proves the specification claims about them.

Conventions of the embedding:
* Python (arbitrary-precision) integers are modelled by `Nat`/`Int`.
* Python floats are modelled by `Rat`; every claim is settled at inputs
  where the float computations of the source are exact, so the rational
  model agrees with the float semantics there.
* `while` loops are modelled by fuel-based structural recursion, where the
  fuel is an explicit upper bound on the number of iterations the Python
  loop performs; every theorem is proved under a sufficient-fuel hypothesis
  that the top-level wrappers always satisfy.
* A `(note, duration)` pair is `ℕ × ℚ`: the MIDI note number and the
  duration (in windows right after segmentation, in seconds later).
-/

namespace Gazouilli

/-! ## Filters (src/gazouilli/filters.py) -/

/-- `weed_out_short_notes` (filters.py): keep the pairs whose duration `d`
satisfies `d > duration_threshold` where `duration_threshold = 3`
(`filter(lambda (n, d): d > duration_threshold, pairs)`). -/
def weed_out_short_notes (pairs : List (ℕ × ℚ)) : List (ℕ × ℚ) :=
  pairs.filter (fun p => decide ((3 : ℚ) < p.2))

/-- The body of the `while i < len(pairs)` loop of `absorb_short_notes`
(filters.py).  The first argument is fuel bounding the number of remaining
loop iterations (the loop increases `i` by 1 or 3 each iteration, so
`pairs.length` iterations always suffice); the last argument is the index
`i`.  At index `i` the source reads `pairs[i]`, `pairs[i + 1]`,
`pairs[i + 2]`; the two look-ahead reads succeed exactly when
`i + 2 < pairs.length`, otherwise the `IndexError` branch keeps
`pairs[i]` only if its duration exceeds the threshold 3 and advances by
one. -/
def absorbLoop (pairs : List (ℕ × ℚ)) : ℕ → ℕ → List (ℕ × ℚ)
  | 0, _ => []
  | fuel + 1, i =>
    if i < pairs.length then
      let p := pairs.getD i (0, 0)
      if i + 2 < pairs.length then
        let q := pairs.getD (i + 1) (0, 0)
        let r := pairs.getD (i + 2) (0, 0)
        if p.1 = r.1 ∧ q.2 < 3 then
          (p.1, p.2 + q.2 + r.2) :: absorbLoop pairs fuel (i + 3)
        else
          if 3 < p.2 then p :: absorbLoop pairs fuel (i + 1)
          else absorbLoop pairs fuel (i + 1)
      else
        if 3 < p.2 then p :: absorbLoop pairs fuel (i + 1)
        else absorbLoop pairs fuel (i + 1)
    else []

/-- `absorb_short_notes` (filters.py): the greedy scan starting at `i = 0`
with `duration_threshold = 3`. -/
def absorb_short_notes (pairs : List (ℕ × ℚ)) : List (ℕ × ℚ) :=
  absorbLoop pairs pairs.length 0

/-- The absorption filter as the specification describes it: a left-to-right
greedy scan over the pair sequence; with three pairs `p, q, r` in view it
merges them into `(p.1, p.2 + q.2 + r.2)` and advances past all three when
`p.1 = r.1` and `q.2` is strictly below the threshold 3, otherwise it keeps
`p` exactly when `p.2` strictly exceeds 3 and advances by one; with fewer
than three pairs in view each remaining head pair is kept exactly when its
duration strictly exceeds 3. -/
def absorbClaim : List (ℕ × ℚ) → List (ℕ × ℚ)
  | [] => []
  | [p] => if 3 < p.2 then [p] else []
  | [p, q] => (if 3 < p.2 then [p] else []) ++ absorbClaim [q]
  | p :: q :: r :: rest =>
    if p.1 = r.1 ∧ q.2 < 3 then (p.1, p.2 + q.2 + r.2) :: absorbClaim rest
    else (if 3 < p.2 then [p] else []) ++ absorbClaim (q :: r :: rest)
termination_by l => l.length

lemma drop_eq_getD_cons {α : Type*} (d : α) :
    ∀ (l : List α) (i : ℕ), i < l.length → l.drop i = l.getD i d :: l.drop (i + 1)
  | a :: l, 0, _ => rfl
  | a :: l, i + 1, h => by
    simpa [List.getD] using drop_eq_getD_cons d l i (by simpa using h)
  | [], i, h => by simp at h

/-- The fuelled scan loop computes the specification's greedy scan of the
suffix starting at index `i`, whenever the fuel bounds the remaining
iterations. -/
lemma absorbLoop_eq_absorbClaim (pairs : List (ℕ × ℚ)) :
    ∀ (fuel i : ℕ), pairs.length - i ≤ fuel →
      absorbLoop pairs fuel i = absorbClaim (pairs.drop i) := by
  intro fuel
  induction fuel with
  | zero =>
    intro i hfuel
    have : pairs.length ≤ i := by omega
    simp [absorbLoop, List.drop_eq_nil_of_le this, absorbClaim]
  | succ fuel ih =>
    intro i hfuel
    by_cases hi : i < pairs.length
    · have hdrop := drop_eq_getD_cons ((0 : ℕ), (0 : ℚ)) pairs i hi
      by_cases h2 : i + 2 < pairs.length
      · have hdrop1 := drop_eq_getD_cons ((0 : ℕ), (0 : ℚ)) pairs (i + 1) (by omega)
        have hdrop2 := drop_eq_getD_cons ((0 : ℕ), (0 : ℚ)) pairs (i + 2) (by omega)
        rw [show i + 1 + 1 = i + 2 from rfl] at hdrop1
        rw [show i + 2 + 1 = i + 3 from rfl] at hdrop2
        simp only [absorbLoop, if_pos hi, if_pos h2]
        rw [ih (i + 3) (by omega), ih (i + 1) (by omega), hdrop, hdrop1, hdrop2]
        simp only [absorbClaim]
        by_cases hc : (pairs.getD i (0, 0)).1 = (pairs.getD (i + 2) (0, 0)).1 ∧
            (pairs.getD (i + 1) (0, 0)).2 < 3
        · rw [if_pos hc, if_pos hc]
        · rw [if_neg hc, if_neg hc]
          by_cases hk : 3 < (pairs.getD i (0, 0)).2
          · rw [if_pos hk, if_pos hk, List.cons_append, List.nil_append]
          · rw [if_neg hk, if_neg hk, List.nil_append]
      · -- fewer than three pairs remain from index `i`
        have hlen : (pairs.drop (i + 1)).length ≤ 1 := by
          simp only [List.length_drop]; omega
        have htail : absorbClaim (pairs.drop i) =
            (if 3 < (pairs.getD i (0, 0)).2 then [pairs.getD i (0, 0)] else []) ++
              absorbClaim (pairs.drop (i + 1)) := by
          rw [hdrop]
          rcases e : pairs.drop (i + 1) with _ | ⟨q, _ | ⟨r, t⟩⟩
          · simp [absorbClaim]
          · simp [absorbClaim]
          · rw [e] at hlen; simp at hlen
        rw [htail]
        simp only [absorbLoop, if_pos hi, if_neg h2]
        rw [ih (i + 1) (by omega)]
        by_cases hk : 3 < (pairs.getD i (0, 0)).2
        · rw [if_pos hk, if_pos hk, List.cons_append, List.nil_append]
        · rw [if_neg hk, if_neg hk, List.nil_append]
    · have : pairs.length ≤ i := by omega
      simp [absorbLoop, hi, List.drop_eq_nil_of_le this, absorbClaim]

/-- The source's scan equals the specification's scan. -/
lemma absorb_eq_absorbClaim (pairs : List (ℕ × ℚ)) :
    absorb_short_notes pairs = absorbClaim pairs := by
  simpa using absorbLoop_eq_absorbClaim pairs pairs.length 0 (by omega)

/-- On a sequence in which every duration strictly exceeds the threshold 3,
the specification's scan never merges and keeps every pair. -/
lemma absorbClaim_of_all_long :
    ∀ (n : ℕ) (pairs : List (ℕ × ℚ)), pairs.length ≤ n →
      (∀ p ∈ pairs, 3 < p.2) → absorbClaim pairs = pairs := by
  intro n
  induction n with
  | zero =>
    intro pairs hn _
    have h0 : pairs = [] := List.length_eq_zero.mp (Nat.le_zero.mp hn)
    subst h0
    simp [absorbClaim]
  | succ n ih =>
    intro pairs hn h
    match pairs with
    | [] => simp [absorbClaim]
    | [p] => simp [absorbClaim, h p (by simp)]
    | [p, q] =>
      have hq := h q (by simp)
      simp [absorbClaim, h p (by simp), hq]
    | p :: q :: r :: rest =>
      have hq := h q (by simp)
      have hnot : ¬(p.1 = r.1 ∧ q.2 < 3) := by
        rintro ⟨-, hlt⟩
        exact absurd hq (by simpa using le_of_lt hlt)
      have hrec := ih (q :: r :: rest) (by simp at hn ⊢; omega)
        (fun x hx => h x (by simp at hx ⊢; tauto))
      simp only [absorbClaim, if_neg hnot, if_pos (h p (by simp)), hrec,
        List.cons_append, List.nil_append]

end Gazouilli

open Gazouilli

/-! ## Claims about the filters -/

/-- Claim C1: the absorption filter performs a strict left-to-right greedy
scan over the pair sequence, merging a triple `(n0,d0),(n1,d1),(n2,d2)` into
`(n0, d0+d1+d2)` and advancing past all three when `n0 = n2` and `d1 < 3`,
otherwise emitting `(n0,d0)` exactly when `d0 > 3` and advancing by one, and
at the tail (fewer than three pairs) emitting each remaining head pair
exactly when its duration strictly exceeds 3; in particular
`absorb([(95,2),(96,1),(95,8),(92,6)]) = [(95,11),(92,6)]`. -/
theorem absorb_filter_greedy_scan :
    (∀ pairs : List (ℕ × ℚ), absorb_short_notes pairs = absorbClaim pairs) ∧
    absorb_short_notes [(95, 2), (96, 1), (95, 8), (92, 6)] = [(95, 11), (92, 6)] :=
  ⟨absorb_eq_absorbClaim, by norm_num [absorb_short_notes, absorbLoop]⟩

/-- Claim C9, counterexample: `[(5, 3)]` has no duration below the
threshold 3, yet the absorption filter drops the pair (the keep test is the
strict `d > 3`), so the filter is not the identity there. -/
theorem absorb_identity_cex :
    (∀ p ∈ [((5 : ℕ), (3 : ℚ))], ¬ p.2 < 3) ∧
    absorb_short_notes [(5, 3)] = [] ∧
    ([] : List (ℕ × ℚ)) ≠ [(5, 3)] := by
  refine ⟨?_, by norm_num [absorb_short_notes, absorbLoop], by simp⟩
  intro p hp
  simp only [List.mem_singleton] at hp
  subst hp
  norm_num

/-- Claim C9, amended: on a sequence in which every pair's duration strictly
exceeds the threshold 3 (rather than merely "is not below" it), the
absorption filter is the identity. -/
theorem absorb_identity_of_all_long (pairs : List (ℕ × ℚ))
    (h : ∀ p ∈ pairs, 3 < p.2) : absorb_short_notes pairs = pairs := by
  rw [absorb_eq_absorbClaim]
  exact absorbClaim_of_all_long pairs.length pairs le_rfl h

/-- Claim C9, witness for the amended theorem at `[(5, 4)]`. -/
theorem absorb_identity_of_all_long_witness :
    absorb_short_notes [(5, 4)] = [(5, 4)] :=
  absorb_identity_of_all_long [(5, 4)] (by
    intro p hp
    simp only [List.mem_singleton] at hp
    subst hp
    norm_num)

/-- Claim C10: after a merge the absorption filter does not re-coalesce equal
adjacent notes: on `[(5,4),(6,1),(5,4),(5,4)]` it returns `[(5,9),(5,4)]`,
two adjacent pairs with the same note, so the segmenter's
no-adjacent-equal-notes invariant is not preserved. -/
theorem absorb_leaves_adjacent_equal_notes :
    absorb_short_notes [(5, 4), (6, 1), (5, 4), (5, 4)] = [(5, 9), (5, 4)] ∧
    ¬ List.Chain' (fun p q : ℕ × ℚ => p.1 ≠ q.1)
      (absorb_short_notes [(5, 4), (6, 1), (5, 4), (5, 4)]) := by
  have h : absorb_short_notes [(5, 4), (6, 1), (5, 4), (5, 4)] = [(5, 9), (5, 4)] := by
    norm_num [absorb_short_notes, absorbLoop]
  exact ⟨h, by rw [h]; simp⟩

/-- Claim C8, counterexample: the weed filter's threshold is the fixed
constant 3, not 0.25: on `[(60, 1/2)]` (a half-second note) the code drops
the pair, while a 0.25-second threshold as claimed would keep it. -/
theorem weed_threshold_cex :
    weed_out_short_notes [(60, 1/2)] = [] ∧
    List.filter (fun p : ℕ × ℚ => decide (1/4 < p.2)) [(60, 1/2)] = [(60, 1/2)] := by
  constructor
  · norm_num [weed_out_short_notes]
  · norm_num

/-- Claim C8, amended: the weed filter returns exactly the subsequence of
pairs whose duration strictly exceeds its threshold, which is the fixed
constant 3 regardless of the duration unit (there is no 0.25-second
default); order is preserved, nothing is merged, and
`weed([(60,0.1),(62,5.0)]) = [(62,5.0)]` (which also holds for threshold 3). -/
theorem weed_filter_strict_threshold :
    (∀ pairs : List (ℕ × ℚ), List.Sublist (weed_out_short_notes pairs) pairs) ∧
    (∀ pairs : List (ℕ × ℚ), ∀ p ∈ weed_out_short_notes pairs, 3 < p.2) ∧
    (∀ pairs : List (ℕ × ℚ), ∀ p ∈ pairs, 3 < p.2 → p ∈ weed_out_short_notes pairs) ∧
    (∀ (pairs : List (ℕ × ℚ)) (p : ℕ × ℚ), 3 < p.2 →
      (weed_out_short_notes pairs).count p = pairs.count p) ∧
    weed_out_short_notes [(60, 1/10), (62, 5)] = [(62, 5)] := by
  refine ⟨fun pairs => List.filter_sublist pairs, ?_, ?_, ?_, ?_⟩
  · intro pairs p hp
    have := (List.mem_filter.mp hp).2
    simpa using this
  · intro pairs p hp h3
    exact List.mem_filter.mpr ⟨hp, by simpa using h3⟩
  · intro pairs p h3
    exact List.count_filter (by simpa using h3)
  · norm_num [weed_out_short_notes]

/-- Claim C8, witness for the amended theorem: the pair `(62, 5)` survives
and its multiplicity is preserved. -/
theorem weed_filter_strict_threshold_witness :
    (weed_out_short_notes [(60, 1/10), (62, 5)]).count ((62 : ℕ), (5 : ℚ)) =
      List.count ((62 : ℕ), (5 : ℚ)) [(60, 1/10), (62, 5)] :=
  weed_filter_strict_threshold.2.2.2.1 [(60, 1/10), (62, 5)] (62, 5) (by norm_num)

namespace Gazouilli

/-! ## Run-length segmenter (src/gazouilli/utils.py and src/gazouilli.py) -/

/-- The `while len(sq) > 0` loop of `collect_consecutive_values` (utils.py).
Each iteration builds `xs = [x == val for x in sq]`, takes
`count = len(xs)` when `all(xs)` and `count = xs.index(False)` otherwise,
emits `(val, count)` and continues with `sq = sq[count:]`.  The fuel bounds
the number of iterations; since `count ≥ 1` each time, `sq.length`
iterations always suffice. -/
def ccvLoop : ℕ → List ℕ → List (ℕ × ℕ)
  | 0, _ => []
  | fuel + 1, sq =>
    match sq with
    | [] => []
    | val :: rest =>
      let xs := (val :: rest).map (fun x => decide (x = val))
      let count := if xs.all (fun b => b) then xs.length
        else xs.findIdx (fun b => b == false)
      (val, count) :: ccvLoop fuel ((val :: rest).drop count)

/-- `collect_consecutive_values` (utils.py). -/
def collect_consecutive_values (seq : List ℕ) : List (ℕ × ℕ) :=
  ccvLoop seq.length seq

/-- The `while len(sq) > 0` loop of `gather_notes` (gazouilli.py): same as
`ccvLoop` except that the count is `xs.index(False)` with the
`ValueError` fallback `len(xs)` — exactly `List.findIdx`, which returns the
length when no entry satisfies the predicate. -/
def gnLoop : ℕ → List ℕ → List (ℕ × ℕ)
  | 0, _ => []
  | fuel + 1, sq =>
    match sq with
    | [] => []
    | note :: rest =>
      let xs := (note :: rest).map (fun x => decide (x = note))
      let duration := xs.findIdx (fun b => b == false)
      (note, duration) :: gnLoop fuel ((note :: rest).drop duration)

/-- `gather_notes` (gazouilli.py). -/
def gather_notes (seq : List ℕ) : List (ℕ × ℕ) :=
  gnLoop seq.length seq

lemma findIdx_not_map_eq (v : ℕ) :
    ∀ l : List ℕ, (l.map fun x => decide (x = v)).findIdx (fun b => !b)
      = (l.takeWhile fun x => decide (x = v)).length
  | [] => by simp
  | a :: t => by
    by_cases ha : a = v
    · simp [List.findIdx_cons, ha, findIdx_not_map_eq v t]
    · simp [List.findIdx_cons, ha]

/-- `xs.index(False)` over `[x == v for x in l]` (with the not-found fallback
`len(xs)`) is the length of the initial run of `v` in `l`. -/
lemma findIdx_false_map_eq (v : ℕ) (l : List ℕ) :
    (l.map fun x => decide (x = v)).findIdx (fun b => b == false)
      = (l.takeWhile fun x => decide (x = v)).length := by
  have hfun : (fun b => b == false) = (fun b : Bool => !b) := by
    funext b; cases b <;> rfl
  rw [hfun, findIdx_not_map_eq]

lemma ccvLoop_nil : ∀ fuel, ccvLoop fuel [] = [] := by
  intro fuel; cases fuel <;> simp [ccvLoop]

lemma gnLoop_nil : ∀ fuel, gnLoop fuel [] = [] := by
  intro fuel; cases fuel <;> simp [gnLoop]

/-- The two count computations of `collect_consecutive_values` and
`gather_notes` agree: both equal the length of the initial run. -/
lemma ccv_count_eq (v : ℕ) (l : List ℕ) :
    (if (l.map fun x => decide (x = v)).all (fun b => b)
      then (l.map fun x => decide (x = v)).length
      else (l.map fun x => decide (x = v)).findIdx (fun b => b == false))
    = (l.takeWhile fun x => decide (x = v)).length := by
  by_cases hall : (l.map fun x => decide (x = v)).all (fun b => b)
  · rw [if_pos hall]
    have hmem : ∀ x ∈ l, decide (x = v) = true := by
      intro x hx
      have := List.all_eq_true.mp hall (decide (x = v)) (List.mem_map_of_mem _ hx)
      simpa using this
    rw [List.takeWhile_eq_self_iff.mpr hmem, List.length_map]
  · rw [if_neg hall, findIdx_false_map_eq]

/-- Dropping the initial run is `dropWhile`. -/
lemma drop_length_takeWhile {α : Type*} (p : α → Bool) :
    ∀ l : List α, l.drop (l.takeWhile p).length = l.dropWhile p
  | [] => rfl
  | a :: t => by
    by_cases ha : p a
    · simp [List.takeWhile_cons, List.dropWhile_cons, ha, drop_length_takeWhile p t]
    · simp [List.takeWhile_cons, List.dropWhile_cons, ha]

/-- The run-length loop: reconstruction, positivity of counts, distinct
adjacent notes, and the shape of the head. -/
lemma ccvLoop_spec :
    ∀ (fuel : ℕ) (sq : List ℕ), sq.length ≤ fuel →
      ((ccvLoop fuel sq).flatMap (fun p => List.replicate p.2 p.1) = sq) ∧
      (∀ p ∈ ccvLoop fuel sq, 1 ≤ p.2) ∧
      List.Chain' (fun p q => p.1 ≠ q.1) (ccvLoop fuel sq) ∧
      (∀ v tl, sq = v :: tl → ∃ c rest2, ccvLoop fuel sq = (v, c) :: rest2) := by
  intro fuel
  induction fuel with
  | zero =>
    intro sq hle
    have h0 : sq = [] := List.length_eq_zero.mp (Nat.le_zero.mp hle)
    subst h0
    refine ⟨rfl, by simp [ccvLoop], by simp [ccvLoop], ?_⟩
    intro v tl h
    exact absurd h (by simp)
  | succ fuel ih =>
    intro sq hle
    match sq with
    | [] =>
      refine ⟨rfl, by simp [ccvLoop], by simp [ccvLoop], ?_⟩
      intro v tl h
      exact absurd h (by simp)
    | val :: rest =>
      set p : ℕ → Bool := fun x => decide (x = val) with hp
      have hcount : (if ((val :: rest).map p).all (fun b => b)
          then ((val :: rest).map p).length
          else ((val :: rest).map p).findIdx (fun b => b == false))
          = ((val :: rest).takeWhile p).length := ccv_count_eq val (val :: rest)
      have hunfold : ccvLoop (fuel + 1) (val :: rest) =
          (val, ((val :: rest).takeWhile p).length) ::
            ccvLoop fuel ((val :: rest).drop ((val :: rest).takeWhile p).length) := by
        simp only [ccvLoop]
        rw [hcount]
      have htw : (val :: rest).takeWhile p = val :: rest.takeWhile p := by
        simp [hp, List.takeWhile_cons]
      have hcpos : 1 ≤ ((val :: rest).takeWhile p).length := by
        rw [htw]; simp
      have hdropW : (val :: rest).drop ((val :: rest).takeWhile p).length =
          (val :: rest).dropWhile p := drop_length_takeWhile p (val :: rest)
      have hlen2 : ((val :: rest).dropWhile p).length ≤ fuel := by
        have h1 : ((val :: rest).dropWhile p).length =
            (val :: rest).length - ((val :: rest).takeWhile p).length := by
          rw [← hdropW, List.length_drop]
        simp only [List.length_cons] at hle h1
        omega
      obtain ⟨hflat, hpos, hchain, hhead⟩ := ih ((val :: rest).dropWhile p)
        hlen2
      have hrepl : (val :: rest).takeWhile p =
          List.replicate ((val :: rest).takeWhile p).length val := by
        refine List.eq_replicate_length.mpr ?_
        intro b hb
        have := List.mem_takeWhile_imp hb
        simpa [hp] using this
      refine ⟨?_, ?_, ?_, ?_⟩
      · rw [hunfold, hdropW]
        simp only [List.flatMap_cons]
        rw [hflat, ← hrepl, List.takeWhile_append_dropWhile]
      · intro q hq
        rw [hunfold] at hq
        rcases List.mem_cons.mp hq with h | h
        · subst h; exact hcpos
        · exact hpos q (by rwa [hdropW] at h)
      · rw [hunfold, hdropW]
        rcases e : (val :: rest).dropWhile p with _ | ⟨w, t2⟩
        · simp [ccvLoop_nil, List.chain'_singleton]
        · obtain ⟨c2, rest2, he⟩ := hhead w t2 e
          rw [e] at he hchain
          rw [he] at hchain ⊢
          refine List.chain'_cons.mpr ⟨?_, hchain⟩
          have hw : p w = false := by
            have hne : (val :: rest).dropWhile p ≠ [] := by rw [e]; simp
            have := List.head_dropWhile_not p (val :: rest) hne
            have hhd : ((val :: rest).dropWhile p).head hne = w := by
              simp only [e, List.head_cons]
            rwa [hhd] at this
          simp only [hp] at hw
          simp only [ne_eq]
          intro hvw
          rw [← hvw] at hw
          simp at hw
      · intro v tl h
        rw [List.cons.injEq] at h
        exact ⟨_, _, by rw [hunfold, h.1]⟩

/-- The older `gather_notes` loop and the packaged
`collect_consecutive_values` loop compute the same run-lengths. -/
lemma gnLoop_eq_ccvLoop : ∀ (fuel : ℕ) (sq : List ℕ), gnLoop fuel sq = ccvLoop fuel sq := by
  intro fuel
  induction fuel with
  | zero => intro sq; rfl
  | succ fuel ih =>
    intro sq
    match sq with
    | [] => rfl
    | val :: rest =>
      have h1 := findIdx_false_map_eq val (val :: rest)
      have h2 := ccv_count_eq val (val :: rest)
      simp only [gnLoop, ccvLoop]
      rw [h2, h1, ih]

end Gazouilli

/-- Claim C2: for every finite input, the run-length segmenter's output is a
round-trip (concatenating each note repeated count times reconstructs the
input), the counts sum to the input length, no two adjacent output pairs
share a note, every count is at least 1, the empty input yields the empty
output — and the two implementations (`collect_consecutive_values` and
`gather_notes`) agree. -/
theorem segmenter_round_trip :
    (∀ seq : List ℕ,
      ((collect_consecutive_values seq).flatMap (fun p => List.replicate p.2 p.1) = seq) ∧
      (((collect_consecutive_values seq).map (fun p => p.2)).sum = seq.length) ∧
      List.Chain' (fun p q => p.1 ≠ q.1) (collect_consecutive_values seq) ∧
      (∀ p ∈ collect_consecutive_values seq, 1 ≤ p.2) ∧
      gather_notes seq = collect_consecutive_values seq) ∧
    collect_consecutive_values [] = [] := by
  refine ⟨?_, rfl⟩
  intro seq
  obtain ⟨hflat, hpos, hchain, -⟩ := ccvLoop_spec seq.length seq le_rfl
  have hflat' : (collect_consecutive_values seq).flatMap
      (fun p => List.replicate p.2 p.1) = seq := hflat
  refine ⟨hflat', ?_, hchain, hpos, gnLoop_eq_ccvLoop seq.length seq⟩
  conv_rhs => rw [← hflat']
  rw [List.length_flatMap,
    show (List.length ∘ fun p : ℕ × ℕ => List.replicate p.2 p.1) = (fun p : ℕ × ℕ => p.2)
      from funext fun p => by simp]

/-- Claim C2, witness: the docstring example input, with a unit count
extracted through the theorem's membership conjunct. -/
theorem segmenter_round_trip_witness :
    1 ≤ ((53 : ℕ), (1 : ℕ)).2 ∧
    (collect_consecutive_values [53, 92, 92, 92, 96, 96, 92]).flatMap
      (fun p => List.replicate p.2 p.1) = [53, 92, 92, 92, 96, 96, 92] :=
  ⟨(segmenter_round_trip.1 [53, 92, 92, 92, 96, 96, 92]).2.2.2.1 (53, 1) (by decide),
    (segmenter_round_trip.1 [53, 92, 92, 92, 96, 96, 92]).1⟩

example : collect_consecutive_values [53, 92, 92, 92, 96, 96, 92] =
    [(53, 1), (92, 3), (96, 2), (92, 1)] := by decide

example : gather_notes [53, 92, 92, 92, 96, 96] = [(53, 1), (92, 3), (96, 2)] := by decide

namespace Gazouilli

/-! ## Note quantizer (src/gazouilli/utils.py) -/

/-- The frequency table `TABLE` (utils.py).  The Python entries are float
literals with exact decimal values, modelled by the same decimal rationals;
the final sentinel `float(sys.maxsize)` is the float nearest to
`2 ^ 63 - 1`, which is `2 ^ 63`. -/
def TABLE : List ℚ := [
  0.0, 8.66, 9.18, 9.72, 10.30, 10.91, 11.56, 12.25, 12.98, 13.75, 14.57,
  15.43, 16.35, 17.32, 18.35, 19.45, 20.60, 21.83, 23.12, 24.50, 25.96,
  27.50, 29.14, 30.87, 32.70, 34.65, 36.71, 38.89, 41.20, 43.65, 46.25,
  49.00, 51.91, 55.00, 58.27, 61.74, 65.41, 69.30, 73.42, 77.78, 82.41,
  87.31, 92.50, 98.00, 103.83, 110.00, 116.54, 123.47, 130.81, 138.59,
  146.83, 155.56, 164.81, 174.61, 185.00, 196.00, 207.65, 220.00, 233.08,
  246.94, 261.63, 277.18, 293.66, 311.13, 329.63, 349.23, 369.99, 392.00,
  415.30, 440.00, 466.16, 493.88, 523.25, 554.37, 587.33, 622.25, 659.26,
  698.46, 739.99, 783.99, 830.61, 880.00, 932.33, 987.77, 1046.50,
  1108.73, 1174.66, 1244.51, 1318.51, 1396.91, 1479.98, 1567.98, 1661.22,
  1760.00, 1864.66, 1975.53, 2093.00, 2217.46, 2349.32, 2489.02, 2637.02,
  2793.83, 2959.96, 3135.96, 3322.44, 3520.00, 3729.31, 3951.07, 4186.01,
  4434.92, 4698.64, 4978.03, 5274.04, 5587.65, 5919.91, 6271.93, 6644.88,
  7040.00, 7458.62, 7902.13, 8372.02, 8869.84, 9397.27, 9956.06, 10548.08,
  11175.30, 11839.82, 12543.85, 9223372036854775808]

/-- The `while lo < hi` loop of CPython's `bisect.bisect_right`:
`mid = (lo+hi)//2; if x < a[mid]: hi = mid else: lo = mid+1`, returning
`lo`.  The fuel bounds the iteration count (the interval shrinks at every
step, so `hi - lo ≤ fuel`, and in particular `fuel = a.length`, always
suffices). -/
def bisectLoop (a : List ℚ) (x : ℚ) : ℕ → ℕ → ℕ → ℕ
  | 0, lo, _ => lo
  | fuel + 1, lo, hi =>
    if lo < hi then
      let mid := (lo + hi) / 2
      if x < a.getD mid 0 then bisectLoop a x fuel lo mid
      else bisectLoop a x fuel (mid + 1) hi
    else lo

/-- `clamp` (utils.py): `i = bisect.bisect(TABLE, freq)` then return `i - 1`
if `freq - TABLE[i-1] < TABLE[i] - freq` and `i` otherwise. -/
def clamp (freq : ℚ) : ℕ :=
  let i := bisectLoop TABLE freq TABLE.length 0 TABLE.length
  if freq - TABLE.getD (i - 1) 0 < TABLE.getD i 0 - freq then i - 1 else i

example : TABLE.length = 129 := by norm_num [TABLE]

example : TABLE.getD 69 0 = 440 := by norm_num [TABLE]

lemma TABLE_length : TABLE.length = 129 := by norm_num [TABLE]

set_option maxHeartbeats 1600000 in
/-- The frequency table is strictly increasing (on its `getD` view). -/
lemma TABLE_sorted : ∀ i j : ℕ, i < j → j < 129 → TABLE.getD i 0 < TABLE.getD j 0 := by
  have hchain : List.Chain' (· < ·) TABLE := by norm_num [TABLE]
  have hpair : List.Pairwise (· < ·) TABLE := List.chain'_iff_pairwise.mp hchain
  intro i j hij hj
  have hi' : i < TABLE.length := by rw [TABLE_length]; omega
  have hj' : j < TABLE.length := by rw [TABLE_length]; omega
  have h := List.pairwise_iff_get.mp hpair ⟨i, hi'⟩ ⟨j, hj'⟩ (by simpa using hij)
  rw [List.getD_eq_getElem?_getD, List.getD_eq_getElem?_getD,
    List.getElem?_eq_getElem hi', List.getElem?_eq_getElem hj']
  simpa using h

/-- Binary-search invariant for the embedded `bisect.bisect_right` loop on
`TABLE`: the result partitions the table into entries `≤ x` (below it) and
entries `> x` (from it on). -/
lemma bisectLoop_spec (x : ℚ) :
    ∀ (fuel lo hi : ℕ), hi - lo ≤ fuel → lo ≤ hi → hi ≤ 129 →
      (∀ j, j < lo → TABLE.getD j 0 ≤ x) →
      (∀ j, hi ≤ j → j < 129 → x < TABLE.getD j 0) →
      lo ≤ bisectLoop TABLE x fuel lo hi ∧ bisectLoop TABLE x fuel lo hi ≤ hi ∧
      (∀ j, j < bisectLoop TABLE x fuel lo hi → TABLE.getD j 0 ≤ x) ∧
      (∀ j, bisectLoop TABLE x fuel lo hi ≤ j → j < 129 → x < TABLE.getD j 0) := by
  intro fuel
  induction fuel with
  | zero =>
    intro lo hi hfuel hlohi hhi hleft hright
    have : lo = hi := by omega
    subst this
    exact ⟨le_rfl, le_rfl, hleft, hright⟩
  | succ fuel ih =>
    intro lo hi hfuel hlohi hhi hleft hright
    by_cases hlt : lo < hi
    · have hmid1 : lo ≤ (lo + hi) / 2 := by omega
      have hmid2 : (lo + hi) / 2 < hi := by omega
      simp only [bisectLoop, if_pos hlt]
      by_cases hx : x < TABLE.getD ((lo + hi) / 2) 0
      · rw [if_pos hx]
        have hright' : ∀ j, (lo + hi) / 2 ≤ j → j < 129 → x < TABLE.getD j 0 := by
          intro j hj hj129
          rcases Nat.eq_or_lt_of_le hj with h | h
          · rwa [← h]
          · exact lt_trans hx (TABLE_sorted _ _ h hj129)
        obtain ⟨ha, hb, hc, hd⟩ :=
          ih lo ((lo + hi) / 2) (by omega) (by omega) (by omega) hleft hright'
        exact ⟨ha, by omega, hc, hd⟩
      · rw [if_neg hx]
        push_neg at hx
        have hleft' : ∀ j, j < (lo + hi) / 2 + 1 → TABLE.getD j 0 ≤ x := by
          intro j hj
          rcases Nat.lt_succ_iff_lt_or_eq.mp hj with h | h
          · exact le_of_lt (lt_of_lt_of_le (TABLE_sorted _ _ h (by omega)) hx)
          · rw [h]; exact hx
        obtain ⟨ha, hb, hc, hd⟩ :=
          ih ((lo + hi) / 2 + 1) hi (by omega) (by omega) hhi hleft' hright
        exact ⟨by omega, hb, hc, hd⟩
    · simp only [bisectLoop, if_neg hlt]
      have : lo = hi := by omega
      subst this
      exact ⟨le_rfl, le_rfl, hleft, hright⟩

/-- For a frequency in range, `bisect.bisect(TABLE, freq)` brackets `freq`
between two consecutive table entries, and `clamp` picks between them by
the distance comparison of the source. -/
lemma clamp_bracket (freq : ℚ) (h0 : 0 ≤ freq) (hlt : freq < TABLE.getD 128 0) :
    ∃ i : ℕ, 1 ≤ i ∧ i ≤ 128 ∧
      TABLE.getD (i - 1) 0 ≤ freq ∧ freq < TABLE.getD i 0 ∧
      (∀ j, j < i → TABLE.getD j 0 ≤ freq) ∧
      (∀ j, i ≤ j → j < 129 → freq < TABLE.getD j 0) ∧
      clamp freq = if freq - TABLE.getD (i - 1) 0 < TABLE.getD i 0 - freq then i - 1 else i := by
  obtain ⟨hlo, hhi, hleft, hright⟩ := bisectLoop_spec freq 129 0 129 (by omega) (by omega)
    le_rfl (by omega) (by intro j hj hj'; omega)
  set i := bisectLoop TABLE freq 129 0 129 with hi
  have h1 : 1 ≤ i := by
    by_contra h
    have hi0 : i = 0 := by omega
    have := hright 0 (by omega) (by omega)
    have hT0 : TABLE.getD 0 0 = 0 := by norm_num [TABLE]
    rw [hT0] at this
    exact absurd this (not_lt.mpr h0)
  have h2 : i ≤ 128 := by
    by_contra h
    have := hleft 128 (by omega)
    exact absurd hlt (not_lt.mpr this)
  have hclamp : clamp freq =
      if freq - TABLE.getD (i - 1) 0 < TABLE.getD i 0 - freq then i - 1 else i := by
    simp only [clamp, TABLE_length, ← hi]
  exact ⟨i, h1, h2, hleft (i - 1) (by omega), hright i le_rfl (by omega),
    hleft, hright, hclamp⟩

end Gazouilli

/-- Claim C3: for every non-negative frequency strictly below the sentinel
entry `TABLE[128]`, `clamp` returns a valid index of a nearest table entry;
a frequency at the exact midpoint of two adjacent entries resolves to the
upper index; a frequency equal to a table entry returns that entry's index;
and `clamp 0 = 0`. -/
theorem clamp_nearest_tie_up (freq : ℚ) (h0 : 0 ≤ freq)
    (hlt : freq < TABLE.getD 128 0) :
    clamp freq < 129 ∧
    (∀ j, j < 129 → |TABLE.getD (clamp freq) 0 - freq| ≤ |TABLE.getD j 0 - freq|) ∧
    (∀ i, i + 1 < 129 → freq = (TABLE.getD i 0 + TABLE.getD (i + 1) 0) / 2 →
      clamp freq = i + 1) ∧
    (∀ k, k < 129 → freq = TABLE.getD k 0 → clamp freq = k) ∧
    clamp 0 = 0 := by
  obtain ⟨i, h1, h2, hbl, hbr, hleft, hright, hclamp⟩ := clamp_bracket freq h0 hlt
  have habs_le : ∀ a b : ℚ, a ≤ b → |a - b| = b - a := fun a b h => by
    rw [abs_sub_comm, abs_of_nonneg (sub_nonneg.mpr h)]
  have habs_ge : ∀ a b : ℚ, b ≤ a → |a - b| = a - b := fun a b h =>
    abs_of_nonneg (sub_nonneg.mpr h)
  have huniq : ∀ i' : ℕ, i' + 1 ≤ 128 → TABLE.getD i' 0 ≤ freq →
      freq < TABLE.getD (i' + 1) 0 → i = i' + 1 := by
    intro i' hi' hlo' hhi'
    by_contra hne
    rcases Nat.lt_or_ge i (i' + 1) with h | h
    · exact absurd (hright i' (by omega) (by omega)) (not_lt.mpr hlo')
    · have : i' + 1 < i := by omega
      exact absurd hhi' (not_lt.mpr (hleft (i' + 1) this))
  refine ⟨?_, ?_, ?_, ?_, ?_⟩
  · rw [hclamp]
    split <;> omega
  · intro j hj
    rw [hclamp]
    by_cases hcmp : freq - TABLE.getD (i - 1) 0 < TABLE.getD i 0 - freq
    · rw [if_pos hcmp, habs_le _ _ hbl]
      rcases Nat.lt_or_ge j i with hji | hji
      · rw [habs_le _ _ (hleft j hji)]
        rcases Nat.eq_or_lt_of_le (by omega : j ≤ i - 1) with h | h
        · rw [h]
        · have := TABLE_sorted j (i - 1) h (by omega)
          linarith
      · rw [habs_ge _ _ (le_of_lt (hright j hji hj))]
        rcases Nat.eq_or_lt_of_le hji with h | h
        · rw [← h]; linarith
        · have := TABLE_sorted i j h hj
          linarith
    · rw [if_neg hcmp, habs_ge _ _ (le_of_lt hbr)]
      push_neg at hcmp
      rcases Nat.lt_or_ge j i with hji | hji
      · rw [habs_le _ _ (hleft j hji)]
        rcases Nat.eq_or_lt_of_le (by omega : j ≤ i - 1) with h | h
        · rw [h]; linarith
        · have := TABLE_sorted j (i - 1) h (by omega)
          linarith
      · rw [habs_ge _ _ (le_of_lt (hright j hji hj))]
        rcases Nat.eq_or_lt_of_le hji with h | h
        · rw [← h]
        · have := TABLE_sorted i j h hj
          linarith
  · intro i' hi' hmid
    have hstep : TABLE.getD i' 0 < TABLE.getD (i' + 1) 0 :=
      TABLE_sorted i' (i' + 1) (by omega) hi'
    have hlo' : TABLE.getD i' 0 ≤ freq := by rw [hmid]; linarith
    have hhi' : freq < TABLE.getD (i' + 1) 0 := by rw [hmid]; linarith
    have hii : i = i' + 1 := huniq i' (by omega) hlo' hhi'
    rw [hclamp, hii]
    have hmid' : freq - TABLE.getD (i' + 1 - 1) 0 = TABLE.getD (i' + 1) 0 - freq := by
      simp only [Nat.add_sub_cancel]
      rw [hmid]; ring
    rw [if_neg (by rw [hmid']; exact lt_irrefl _)]
  · intro k hk hfk
    have hk0 : TABLE.getD k 0 = freq := hfk.symm
    have hk128 : k ≤ 127 := by
      by_contra h
      have : k = 128 := by omega
      rw [this] at hk0
      exact absurd hlt (by rw [hk0]; exact lt_irrefl _)
    have hii : i = k + 1 := by
      refine huniq k (by omega) (le_of_eq hk0) ?_
      exact hk0 ▸ TABLE_sorted k (k + 1) (by omega) (by omega)
    rw [hclamp, hii]
    have : freq - TABLE.getD (k + 1 - 1) 0 < TABLE.getD (k + 1) 0 - freq := by
      simp only [Nat.add_sub_cancel]
      rw [hk0]
      have := hk0 ▸ TABLE_sorted k (k + 1) (by omega) (by omega)
      linarith
    rw [if_pos this]
    omega
  · obtain ⟨i0, g1, g2, gbl, gbr, gleft, gright, gclamp⟩ :=
      clamp_bracket 0 le_rfl (by norm_num [TABLE])
    have hi01 : i0 = 1 := by
      by_contra h
      have h2' : 2 ≤ i0 := by omega
      have := gleft 1 (by omega)
      have hT1 : TABLE.getD 1 0 = 433/50 := by norm_num [TABLE]
      rw [hT1] at this
      norm_num at this
    rw [gclamp, hi01]
    have hT0 : TABLE.getD 0 0 = 0 := by norm_num [TABLE]
    have hT1 : TABLE.getD 1 0 = 433/50 := by norm_num [TABLE]
    rw [if_pos (by simp only [Nat.sub_self, hT0, hT1]; norm_num)]

/-- Claim C3, witness: the A440 entry sits at index 69, and `clamp`
returns that index for 440 Hz. -/
theorem clamp_nearest_tie_up_witness : clamp 440 = 69 :=
  (clamp_nearest_tie_up 440 (by norm_num) (by norm_num [TABLE])).2.2.2.1 69
    (by omega) (by norm_num [TABLE])

namespace Gazouilli

/-! ## MIDI serializer (src/gazouilli/writers/midi.py) -/

/-- Python's `int(q)`: truncation toward zero. -/
def pyInt (q : ℚ) : ℤ := q.num.tdiv q.den

/-- The tick computation of `Midi.__init__`:
`int(duration * self.division * (1e6 / self.tempo))`. -/
def length_in_ticks (duration : ℚ) (division tempo : ℕ) : ℤ :=
  pyInt (duration * division * (1000000 / tempo))

/-- `round_to_closest_sixteenth_note` (midi.py).  Python 2 integer `/` and
`%` are floor division and keep the divisor's sign, i.e. `Int.fdiv` and
`Int.fmod`. -/
def round_to_closest_sixteenth_note (ticks division : ℤ) : ℤ :=
  let t := division.fdiv 4
  let num := ticks.fdiv t
  let remainder := ticks.fmod t
  if remainder > t.fdiv 2 then (num + 1) * t else num * t

/-- The `while end and pairs[end-1][0] == 0: end -= 1` loop of
`strip_trailing_silence` (midi.py); the argument is the current `end`. -/
def stripEnd (pairs : List (ℕ × ℚ)) : ℕ → ℕ
  | 0 => 0
  | e + 1 => if (pairs.getD e (0, 0)).1 = 0 then stripEnd pairs e else e + 1

/-- `strip_trailing_silence` (midi.py): `pairs[:end]` with the final `end`. -/
def strip_trailing_silence (pairs : List (ℕ × ℚ)) : List (ℕ × ℚ) :=
  pairs.take (stripEnd pairs pairs.length)

/-- First loop of `var_len` (midi.py): packs the 7-bit groups of `value`
into the integer `buf`, shifting `buf` left one byte per group and setting
the continuation bit `0x80` on every newly added byte.  The fuel bounds the
iteration count; `value` iterations always suffice since `value >>= 7`
strictly decreases a positive value. -/
def varLenPack : ℕ → ℕ → ℕ → ℕ
  | 0, buf, _ => buf
  | fuel + 1, buf, value =>
    if value = 0 then buf
    else varLenPack fuel (((buf <<< 8) ||| 0x80) + (value &&& 0x7f)) (value >>> 7)

/-- Second loop of `var_len` (midi.py): emits `buf & 0xFF`, then shifts
`buf` right one byte while the emitted byte has the continuation bit set.
The fuel bounds the iteration count; `buf` iterations always suffice. -/
def varLenUnpack : ℕ → ℕ → List ℕ
  | 0, _ => []
  | fuel + 1, buf =>
    if buf &&& 0x80 ≠ 0 then (buf &&& 0xFF) :: varLenUnpack fuel (buf >>> 8)
    else [buf &&& 0xFF]

/-- `var_len` (midi.py): MIDI variable-length encoding of a non-negative
integer, as the composition of the two loops
(`buf = value & 0x7f; value >>= 7` before the first loop). -/
def var_len (value : ℕ) : List ℕ :=
  let buf := varLenPack (value + 1) (value &&& 0x7f) (value >>> 7)
  varLenUnpack (buf + 1) buf

/-- The 7-bit groups of `v` that precede the final byte of a MIDI
variable-length quantity, in big-endian group order, each with the high
bit `0x80` set — the byte layout the specification describes. -/
def vlqGroups (v : ℕ) : List ℕ :=
  if v = 0 then [] else vlqGroups (v >>> 7) ++ [0x80 ||| (v &&& 0x7f)]
termination_by v
decreasing_by
  rw [Nat.shiftRight_eq_div_pow]
  exact Nat.div_lt_self (Nat.pos_of_ne_zero (by assumption)) (by norm_num)

/-- A MIDI variable-length quantity as the specification describes it:
the 7-bit groups of `v` in big-endian order, the high bit set on every
byte except the last, which is `v &&& 0x7f`. -/
def vlqSpec (v : ℕ) : List ℕ :=
  vlqGroups (v >>> 7) ++ [v &&& 0x7f]

/-- The note-event loop of `Midi.write` (midi.py): triples are
`(time, event, note)`; an event with `note = 0` adds its time to
`running_time` and writes nothing, any other event writes
`var_len(time + running_time)` followed by `event, note, velocity` and
resets `running_time` to 0.  The second argument is `running_time`. -/
def note_events_bytes (velocity : ℕ) : List (ℕ × ℕ × ℕ) → ℕ → List ℕ
  | [], _ => []
  | (time, event, note) :: rest, running =>
    if note = 0 then note_events_bytes velocity rest (running + time)
    else var_len (time + running) ++ [event, note, velocity] ++
      note_events_bytes velocity rest 0

/-- The specification's view of the same loop: silence events fold their
tick duration into a running offset that is added to the delta-time of the
next real event, and the offset resets to 0 after each written event. -/
def silence_folded_events : List (ℕ × ℕ × ℕ) → ℕ → List (ℕ × ℕ × ℕ)
  | [], _ => []
  | (time, event, note) :: rest, off =>
    if note = 0 then silence_folded_events rest (off + time)
    else (time + off, event, note) :: silence_folded_events rest 0

example : var_len 0 = [0x00] := by decide

example : var_len 127 = [0x7F] := by decide

example : var_len 128 = [0x81, 0x00] := by decide

example : var_len 16383 = [0xFF, 0x7F] := by decide

example : round_to_closest_sixteenth_note 12 96 = 0 := by decide

example : strip_trailing_silence [(3, 1/2), (0, 1), (0, 2)] = [(3, 1/2)] := by
  norm_num [strip_trailing_silence, stripEnd]

/-- Python's `int()` truncation agrees with the floor on non-negative
rationals. -/
lemma pyInt_eq_floor (q : ℚ) (h : 0 ≤ q) : pyInt q = ⌊q⌋ := by
  rw [pyInt, Rat.floor_def]
  exact Int.tdiv_eq_ediv (Rat.num_nonneg.mpr h) (Int.natCast_nonneg q.den)

end Gazouilli

/-- Claim C4, counterexample: at duration `7/512` s (an exactly
representable float) with the default `division = 96`, `tempo = 500000`,
the intermediate value is `21/8 = 2.625` ticks; the code's `int()` yields
2, while the claimed round-to-nearest would yield 3. -/
theorem midi_ticks_not_rounded_cex :
    length_in_ticks (7/512) 96 500000 = 2 ∧
    round ((7 : ℚ)/512 * 96 * (1000000 / 500000)) = 3 ∧
    (2 : ℤ) ≠ 3 := by
  refine ⟨?_, ?_, by norm_num⟩
  · rw [length_in_ticks, pyInt_eq_floor _ (by norm_num)]
    rw [show ((7 : ℚ)/512 * (96 : ℕ) * (1000000 / (500000 : ℕ))) = 21/8 by norm_num]
    rw [Int.floor_eq_iff]
    norm_num
  · rw [show ((7 : ℚ)/512 * 96 * (1000000 / 500000)) = 21/8 by norm_num]
    rw [round_eq, Int.floor_eq_iff]
    norm_num

/-- Claim C4, amended: the tick length of each surviving pair is computed by
`int(duration * division * (1e6 / tempo))`, i.e. truncation toward zero —
the floor for the non-negative durations of the pipeline — not rounding to
the nearest integer. -/
theorem midi_ticks_truncate (duration : ℚ) (division tempo : ℕ)
    (h : 0 ≤ duration) :
    length_in_ticks duration division tempo =
      ⌊duration * division * (1000000 / tempo)⌋ :=
  pyInt_eq_floor _ (by positivity)

/-- Claim C4, witness for the amended theorem at duration `7/512`. -/
theorem midi_ticks_truncate_witness :
    length_in_ticks (7/512) 96 500000 =
      ⌊(7 : ℚ)/512 * (96 : ℕ) * (1000000 / (500000 : ℕ))⌋ :=
  midi_ticks_truncate (7/512) 96 500000 (by norm_num)

/-- Claim C7, counterexample: with `division = 96` a sixteenth note is 24
ticks; a tick length of 12 has remainder exactly half of 24, and the code
rounds it down to 0 (the test is the strict `remainder > t / 2`), not up
to 24 as claimed. -/
theorem sixteenth_rounding_cex :
    round_to_closest_sixteenth_note 12 96 = 0 ∧
    (12 : ℤ) - 0 = 24 - 12 ∧
    (0 : ℤ) ≠ 24 := by
  refine ⟨by decide, by norm_num, by norm_num⟩

/-- Claim C7, amended: when normalization is enabled every tick length is
rounded to the nearest integer multiple of `division / 4`, but a remainder
exactly equal to half of `division / 4` rounds down to the lower multiple
(the code tests `remainder > t / 2` strictly), not up. -/
theorem sixteenth_rounding_ties_down (L division k : ℤ) (hk : 0 < k)
    (hdiv : division = 8 * k) :
    (2 * k ∣ round_to_closest_sixteenth_note L division) ∧
    (∀ m : ℤ, 2 * k ∣ m →
      |L - round_to_closest_sixteenth_note L division| ≤ |L - m|) ∧
    (∀ m : ℤ, 2 * k ∣ m →
      |L - m| = |L - round_to_closest_sixteenth_note L division| →
      round_to_closest_sixteenth_note L division ≤ m) := by
  subst hdiv
  have ht : (8 * k).fdiv 4 = 2 * k := by
    rw [Int.fdiv_eq_ediv _ (by norm_num)]
    omega
  have ht2 : (2 * k).fdiv 2 = k := by
    rw [Int.fdiv_eq_ediv _ (by norm_num)]
    omega
  have h2k : (0 : ℤ) < 2 * k := by omega
  have hfd : L.fdiv (2 * k) = L / (2 * k) := Int.fdiv_eq_ediv _ (by omega)
  have hfm : L.fmod (2 * k) = L % (2 * k) := Int.fmod_eq_emod _ (by omega)
  set A := L / (2 * k) with hA
  set R := L % (2 * k) with hR
  have hR0 : 0 ≤ R := Int.emod_nonneg L (by omega)
  have hR1 : R < 2 * k := Int.emod_lt_of_pos L h2k
  have hL : L = 2 * k * A + R := by
    rw [hA, hR]
    exact (Int.ediv_add_emod L (2 * k)).symm
  have hval : round_to_closest_sixteenth_note L (8 * k) =
      if R > k then (A + 1) * (2 * k) else A * (2 * k) := by
    simp only [round_to_closest_sixteenth_note, ht, ht2, hfd, hfm]
  by_cases hgt : R > k
  · rw [hval, if_pos hgt]
    have hdist : L - (A + 1) * (2 * k) = R - 2 * k := by rw [hL]; ring
    have habs : |L - (A + 1) * (2 * k)| = 2 * k - R := by
      rw [hdist, abs_of_nonpos (by omega)]
      ring
    refine ⟨⟨A + 1, by ring⟩, ?_, ?_⟩
    · rintro m ⟨j, hj⟩
      rw [habs, hj]
      have hdm : L - 2 * k * j = 2 * k * (A - j) + R := by rw [hL]; ring
      rcases le_or_lt j A with hja | hja
      · have hprod : 0 ≤ 2 * k * (A - j) :=
          mul_nonneg (by omega) (by omega)
        rw [hdm, abs_of_nonneg (by omega)]
        omega
      · have hprod : 2 * k ≤ 2 * k * (j - A) := by
          have h1 : (1 : ℤ) ≤ j - A := by omega
          calc 2 * k = 2 * k * 1 := by ring
          _ ≤ 2 * k * (j - A) := mul_le_mul_of_nonneg_left h1 (by omega)
        have hneg : L - 2 * k * j ≤ 0 := by
          have : 2 * k * (A - j) = -(2 * k * (j - A)) := by ring
          omega
        rw [hdm, abs_of_nonpos (by omega)]
        have : -(2 * k * (A - j) + R) = 2 * k * (j - A) - R := by ring
        omega
    · rintro m ⟨j, hj⟩ htie
      rw [habs, hj] at htie
      rw [hj]
      have hdm : L - 2 * k * j = 2 * k * (A - j) + R := by rw [hL]; ring
      rcases le_or_lt j A with hja | hja
      · exfalso
        have hprod : 0 ≤ 2 * k * (A - j) :=
          mul_nonneg (by omega) (by omega)
        rw [hdm, abs_of_nonneg (by omega)] at htie
        omega
      · have hprod : 2 * k ≤ 2 * k * (j - A) := by
          have h1 : (1 : ℤ) ≤ j - A := by omega
          calc 2 * k = 2 * k * 1 := by ring
          _ ≤ 2 * k * (j - A) := mul_le_mul_of_nonneg_left h1 (by omega)
        have hneg : 2 * k * (A - j) = -(2 * k * (j - A)) := by ring
        rw [hdm, abs_of_nonpos (by omega)] at htie
        have hj1 : 2 * k * (j - A) = 2 * k * 1 := by omega
        have : j - A = 1 := mul_left_cancel₀ (by omega : (2 : ℤ) * k ≠ 0) hj1
        have hja1 : j = A + 1 := by omega
        rw [hja1]
        exact le_of_eq (by ring)
  · rw [hval, if_neg hgt]
    push_neg at hgt
    have habs : |L - A * (2 * k)| = R := by
      have : L - A * (2 * k) = R := by rw [hL]; ring
      rw [this, abs_of_nonneg hR0]
    refine ⟨⟨A, by ring⟩, ?_, ?_⟩
    · rintro m ⟨j, hj⟩
      rw [habs, hj]
      have hdm : L - 2 * k * j = 2 * k * (A - j) + R := by rw [hL]; ring
      rcases le_or_lt j A with hja | hja
      · have hprod : 0 ≤ 2 * k * (A - j) :=
          mul_nonneg (by omega) (by omega)
        rw [hdm, abs_of_nonneg (by omega)]
        omega
      · have hprod : 2 * k ≤ 2 * k * (j - A) := by
          have h1 : (1 : ℤ) ≤ j - A := by omega
          calc 2 * k = 2 * k * 1 := by ring
          _ ≤ 2 * k * (j - A) := mul_le_mul_of_nonneg_left h1 (by omega)
        have hneg : 2 * k * (A - j) = -(2 * k * (j - A)) := by ring
        rw [hdm, abs_of_nonpos (by omega)]
        omega
    · rintro m ⟨j, hj⟩ htie
      rw [habs, hj] at htie
      rw [hj]
      have hdm : L - 2 * k * j = 2 * k * (A - j) + R := by rw [hL]; ring
      rcases le_or_lt j A with hja | hja
      · have hprod : 0 ≤ 2 * k * (A - j) :=
          mul_nonneg (by omega) (by omega)
        rw [hdm, abs_of_nonneg (by omega)] at htie
        have hj0 : 2 * k * (A - j) = 2 * k * 0 := by omega
        have : A - j = 0 := mul_left_cancel₀ (by omega : (2 : ℤ) * k ≠ 0) hj0
        have : j = A := by omega
        rw [this]
        exact le_of_eq (by ring)
      · have hprod : 2 * k ≤ 2 * k * (j - A) := by
          have h1 : (1 : ℤ) ≤ j - A := by omega
          calc 2 * k = 2 * k * 1 := by ring
          _ ≤ 2 * k * (j - A) := mul_le_mul_of_nonneg_left h1 (by omega)
        have hneg : 2 * k * (A - j) = -(2 * k * (j - A)) := by ring
        have hAj : A * (2 * k) = 2 * k * A := by ring
        rw [hAj]
        have : 2 * k * A ≤ 2 * k * j :=
          mul_le_mul_of_nonneg_left (by omega) (by omega)
        omega

/-- Claim C7, witness for the amended theorem: with `division = 96`, the
multiple 24 is no closer to 12 than the code's result is. -/
theorem sixteenth_rounding_ties_down_witness :
    |(12 : ℤ) - round_to_closest_sixteenth_note 12 96| ≤ |(12 : ℤ) - 24| :=
  (sixteenth_rounding_ties_down 12 96 12 (by norm_num) (by norm_num)).2.1 24
    ⟨1, by norm_num⟩

namespace Gazouilli

/-! ## Silence handling of the MIDI track body (src/gazouilli/writers/midi.py) -/

lemma stripEnd_le (pairs : List (ℕ × ℚ)) : ∀ e, stripEnd pairs e ≤ e := by
  intro e
  induction e with
  | zero => simp [stripEnd]
  | succ e ih =>
    simp only [stripEnd]
    split
    · omega
    · omega

/-- Everything at or beyond the final `end` is silence, given that
everything at or beyond the initial `end` is. -/
lemma stripEnd_suffix (pairs : List (ℕ × ℚ)) :
    ∀ e, (∀ j, e ≤ j → j < pairs.length → (pairs.getD j (0, 0)).1 = 0) →
      ∀ j, stripEnd pairs e ≤ j → j < pairs.length → (pairs.getD j (0, 0)).1 = 0 := by
  intro e
  induction e with
  | zero => intro h; simpa [stripEnd] using h
  | succ e ih =>
    intro h j hj hjlen
    simp only [stripEnd] at hj
    by_cases hz : (pairs.getD e (0, 0)).1 = 0
    · rw [if_pos hz] at hj
      refine ih ?_ j hj hjlen
      intro j' hj' hj'len
      rcases Nat.eq_or_lt_of_le hj' with h' | h'
      · rwa [← h']
      · exact h j' h' hj'len
    · rw [if_neg hz] at hj
      exact h j hj hjlen

/-- The final `end` is 0 or points just past a non-silent pair. -/
lemma stripEnd_last (pairs : List (ℕ × ℚ)) :
    ∀ e, stripEnd pairs e = 0 ∨
      (pairs.getD (stripEnd pairs e - 1) (0, 0)).1 ≠ 0 := by
  intro e
  induction e with
  | zero => left; rfl
  | succ e ih =>
    simp only [stripEnd]
    by_cases hz : (pairs.getD e (0, 0)).1 = 0
    · rw [if_pos hz]
      exact ih
    · rw [if_neg hz]
      right
      simpa using hz

lemma getD_eq_getElem_of_lt (pairs : List (ℕ × ℚ)) (j : ℕ) (h : j < pairs.length) :
    pairs.getD j (0, 0) = pairs[j] := by
  rw [List.getD_eq_getElem?_getD, List.getElem?_eq_getElem h, Option.getD_some]

/-- The strip keeps a prefix and drops only trailing silence. -/
lemma strip_trailing_silence_spec (pairs : List (ℕ × ℚ)) :
    pairs = strip_trailing_silence pairs ++
      pairs.drop (strip_trailing_silence pairs).length ∧
    (∀ p ∈ pairs.drop (strip_trailing_silence pairs).length, p.1 = 0) ∧
    (∀ h : strip_trailing_silence pairs ≠ [],
      ((strip_trailing_silence pairs).getLast h).1 ≠ 0) := by
  set e := stripEnd pairs pairs.length with he
  have hle : e ≤ pairs.length := stripEnd_le pairs pairs.length
  have hlen : (strip_trailing_silence pairs).length = e := by
    rw [strip_trailing_silence, ← he, List.length_take]
    omega
  have hsuffix : ∀ j, e ≤ j → j < pairs.length → (pairs.getD j (0, 0)).1 = 0 :=
    stripEnd_suffix pairs pairs.length (by omega) 
  refine ⟨?_, ?_, ?_⟩
  · rw [hlen, strip_trailing_silence, ← he, List.take_append_drop]
  · rw [hlen]
    intro p hp
    obtain ⟨i, hi, hip⟩ := List.mem_iff_getElem.mp hp
    rw [List.getElem_drop] at hip
    have hilen : e + i < pairs.length := by
      have := List.length_drop e pairs ▸ hi
      omega
    have := hsuffix (e + i) (by omega) hilen
    rw [getD_eq_getElem_of_lt pairs (e + i) hilen] at this
    rw [hip] at this
    exact this
  · intro h
    have hstrip : strip_trailing_silence pairs = pairs.take e := by
      rw [strip_trailing_silence, ← he]
    have hne : e ≠ 0 := by
      intro h0
      apply h
      rw [hstrip, h0, List.take_zero]
    have hlast : (pairs.getD (e - 1) (0, 0)).1 ≠ 0 := by
      rcases stripEnd_last pairs pairs.length with h0 | hx
      · exact absurd (he ▸ h0) hne
      · exact he ▸ hx
    have he1 : e - 1 < pairs.length := by omega
    rw [List.getLast_eq_getElem]
    simp only [hstrip, List.length_take, Nat.min_eq_left hle, List.getElem_take]
    rwa [getD_eq_getElem_of_lt pairs (e - 1) he1] at hlast

/-- A track of silence events writes nothing. -/
lemma note_events_bytes_silence (v : ℕ) :
    ∀ (sil : List (ℕ × ℕ × ℕ)) (off : ℕ), (∀ x ∈ sil, x.2.2 = 0) →
      note_events_bytes v sil off = [] := by
  intro sil
  induction sil with
  | nil => intro off _; rfl
  | cons x rest ih =>
    intro off h
    obtain ⟨t, e, n⟩ := x
    have hn : n = 0 := h (t, e, n) (by simp)
    simp only [note_events_bytes, if_pos hn]
    exact ih _ (fun y hy => h y (by simp [hy]))

/-- The write loop emits exactly the encodings of the silence-folded
events. -/
lemma note_events_bytes_eq_folded (v : ℕ) :
    ∀ (track : List (ℕ × ℕ × ℕ)) (off : ℕ),
      note_events_bytes v track off =
        (silence_folded_events track off).flatMap
          (fun x => var_len x.1 ++ [x.2.1, x.2.2, v]) := by
  intro track
  induction track with
  | nil => intro off; rfl
  | cons x rest ih =>
    intro off
    obtain ⟨t, e, n⟩ := x
    by_cases hn : n = 0
    · simp only [note_events_bytes, silence_folded_events, if_pos hn]
      exact ih _
    · simp only [note_events_bytes, silence_folded_events, if_neg hn,
        List.flatMap_cons, ih 0]

/-- Every silence-folded event is a real (non-silence) note event. -/
lemma silence_folded_events_nonzero :
    ∀ (track : List (ℕ × ℕ × ℕ)) (off : ℕ) (x : ℕ × ℕ × ℕ),
      x ∈ silence_folded_events track off → x.2.2 ≠ 0 := by
  intro track
  induction track with
  | nil => intro off x hx; simp [silence_folded_events] at hx
  | cons y rest ih =>
    intro off x hx
    obtain ⟨t, e, n⟩ := y
    by_cases hn : n = 0
    · rw [silence_folded_events, if_pos hn] at hx
      exact ih _ x hx
    · rw [silence_folded_events, if_neg hn] at hx
      rcases List.mem_cons.mp hx with h | h
      · rw [h]
        exact hn
      · exact ih _ x h

/-- Silence events accumulate into the delta-time of the next real event,
which resets the offset to 0. -/
lemma note_events_bytes_accum (v : ℕ) :
    ∀ (sil : List (ℕ × ℕ × ℕ)) (t e n : ℕ) (rest : List (ℕ × ℕ × ℕ)) (off : ℕ),
      (∀ x ∈ sil, x.2.2 = 0) → n ≠ 0 →
      note_events_bytes v (sil ++ (t, e, n) :: rest) off =
        var_len (t + (off + (sil.map fun x => x.1).sum)) ++ [e, n, v] ++
          note_events_bytes v rest 0 := by
  intro sil
  induction sil with
  | nil =>
    intro t e n rest off _ hn
    simp only [List.nil_append, note_events_bytes, if_neg hn, List.map_nil,
      List.sum_nil, Nat.add_zero]
  | cons x rest0 ih =>
    intro t e n rest off h hn
    obtain ⟨ts, es, ns⟩ := x
    have hns : ns = 0 := h (ts, es, ns) (by simp)
    simp only [List.cons_append, note_events_bytes, if_pos hns, List.append_eq]
    rw [ih t e n rest (off + ts) (fun y hy => h y (by simp [hy])) hn]
    simp only [List.map_cons, List.sum_cons]
    have harith : off + ts + (List.map (fun x => x.1) rest0).sum =
        off + (ts + (List.map (fun x => x.1) rest0).sum) := by omega
    rw [harith]

end Gazouilli

/-- Claim C5: before serialization all trailing silent pairs (note 0) are
stripped, keeping everything up to the last non-silent pair unchanged; in
the track-body loop, events with note 0 are never written as MIDI events —
the body is exactly the concatenated encodings of the silence-folded real
events, every one of which has a non-zero note — and a silence run's ticks
are added to the delta-time of the next real event, after which the running
offset resets to 0. -/
theorem midi_silence_elision :
    (∀ pairs : List (ℕ × ℚ),
      pairs = strip_trailing_silence pairs ++
        pairs.drop (strip_trailing_silence pairs).length ∧
      (∀ p ∈ pairs.drop (strip_trailing_silence pairs).length, p.1 = 0) ∧
      (∀ h : strip_trailing_silence pairs ≠ [],
        ((strip_trailing_silence pairs).getLast h).1 ≠ 0)) ∧
    (∀ (v : ℕ) (sil : List (ℕ × ℕ × ℕ)) (off : ℕ), (∀ x ∈ sil, x.2.2 = 0) →
      note_events_bytes v sil off = []) ∧
    (∀ (v : ℕ) (track : List (ℕ × ℕ × ℕ)) (off : ℕ),
      note_events_bytes v track off =
        (silence_folded_events track off).flatMap
          (fun x => var_len x.1 ++ [x.2.1, x.2.2, v])) ∧
    (∀ (track : List (ℕ × ℕ × ℕ)) (off : ℕ) (x : ℕ × ℕ × ℕ),
      x ∈ silence_folded_events track off → x.2.2 ≠ 0) ∧
    (∀ (v : ℕ) (sil : List (ℕ × ℕ × ℕ)) (t e n : ℕ)
      (rest : List (ℕ × ℕ × ℕ)) (off : ℕ),
      (∀ x ∈ sil, x.2.2 = 0) → n ≠ 0 →
      note_events_bytes v (sil ++ (t, e, n) :: rest) off =
        var_len (t + (off + (sil.map fun x => x.1).sum)) ++ [e, n, v] ++
          note_events_bytes v rest 0) :=
  ⟨strip_trailing_silence_spec, note_events_bytes_silence,
    note_events_bytes_eq_folded, silence_folded_events_nonzero,
    note_events_bytes_accum⟩

/-- Claim C5, witness: a silent event of 5 ticks at running offset 2 folds
into the delta-time of the following note-60 event, and a stripped list
ends with a non-silent pair. -/
theorem midi_silence_elision_witness :
    note_events_bytes 127 [(5, 0x80, 0), (7, 0x90, 60)] 2 =
      var_len (7 + (2 + ([((5 : ℕ), (0x80 : ℕ), (0 : ℕ))].map fun x => x.1).sum)) ++
        [0x90, 60, 127] ++ note_events_bytes 127 [] 0 ∧
    (strip_trailing_silence [(3, 1/2), (0, 1)] ≠ [] →
      ∀ h : strip_trailing_silence [(3, 1/2), (0, 1)] ≠ [],
      ((strip_trailing_silence [(3, 1/2), (0, 1)]).getLast h).1 ≠ 0) :=
  ⟨midi_silence_elision.2.2.2.2 127 [(5, 0x80, 0)] 7 0x90 60 [] 2
      (by intro x hx; simp only [List.mem_singleton] at hx; rw [hx]) (by norm_num),
    fun _ => (midi_silence_elision.1 [(3, 1/2), (0, 1)]).2.2⟩

namespace Gazouilli

/-! ## Variable-length quantity encoding (var_len, midi.py) -/

lemma shiftRight7_lt (v : ℕ) (hv : v ≠ 0) : v >>> 7 < v := by
  rw [Nat.shiftRight_eq_div_pow]
  exact Nat.div_lt_self (Nat.pos_of_ne_zero hv) (by norm_num)

/-- The packed value of the groups of `w`: each group byte occupies one
base-256 digit, the most significant 7-bit group of `w` in the lowest
digit. -/
def vlqVal (w : ℕ) : ℕ :=
  if w = 0 then 0
  else (0x80 ||| (w &&& 0x7f)) * 256 ^ (vlqGroups (w >>> 7)).length + vlqVal (w >>> 7)
termination_by w
decreasing_by exact shiftRight7_lt _ (by assumption)

lemma and_0x7f (v : ℕ) : v &&& 0x7f = v % 128 := by
  calc v &&& 0x7f = v &&& (2 ^ 7 - 1) := by norm_num
  _ = v % 2 ^ 7 := Nat.and_pow_two_sub_one_eq_mod v 7
  _ = v % 128 := by norm_num

lemma and_0xff (v : ℕ) : v &&& 0xFF = v % 256 := by
  calc v &&& 0xFF = v &&& (2 ^ 8 - 1) := by norm_num
  _ = v % 2 ^ 8 := Nat.and_pow_two_sub_one_eq_mod v 8
  _ = v % 256 := by norm_num

lemma shiftRight_7 (v : ℕ) : v >>> 7 = v / 128 := by
  rw [Nat.shiftRight_eq_div_pow]

lemma shiftRight_8 (v : ℕ) : v >>> 8 = v / 256 := by
  rw [Nat.shiftRight_eq_div_pow]

lemma shiftLeft_or_small (a b : ℕ) (hb : b < 256) : (a <<< 8) ||| b = 256 * a + b := by
  have hb' : b < 2 ^ 8 := lt_of_lt_of_eq hb (by norm_num)
  have h := (Nat.mul_add_lt_is_or hb' a).symm
  rw [Nat.shiftLeft_eq, mul_comm a (2 ^ 8), h]

lemma or_0x80 (v : ℕ) : (0x80 : ℕ) ||| (v &&& 0x7f) = 128 + v % 128 := by
  have hlt : v &&& 0x7f < 2 ^ 7 := by
    rw [and_0x7f]
    exact lt_of_lt_of_eq (Nat.mod_lt v (by norm_num)) (by norm_num)
  have h := (Nat.mul_add_lt_is_or hlt 1).symm
  have h0 : (0x80 : ℕ) = 2 ^ 7 * 1 := by norm_num
  rw [h0, h, and_0x7f]
  norm_num

lemma and_0x80_ne_zero (x : ℕ) : x &&& 0x80 ≠ 0 ↔ x / 128 % 2 = 1 := by
  have h : x &&& (0x80 : ℕ) = x &&& 2 ^ 7 := by norm_num
  rw [h, Nat.and_two_pow, Nat.testBit_to_div_mod]
  constructor
  · intro hne
    by_contra hmod
    simp [hmod] at hne
  · intro hmod
    simp [hmod]

/-- Closed form of the packing loop: the groups of `w` slide in under
`buf`, one byte per group. -/
lemma varLenPack_spec :
    ∀ (fuel w buf : ℕ), w ≤ fuel →
      varLenPack fuel buf w = buf * 256 ^ (vlqGroups w).length + vlqVal w := by
  intro fuel
  induction fuel with
  | zero =>
    intro w buf hw
    have : w = 0 := by omega
    subst this
    simp [varLenPack, vlqGroups, vlqVal]
  | succ fuel ih =>
    intro w buf hw
    by_cases hw0 : w = 0
    · subst hw0
      simp [varLenPack, vlqGroups, vlqVal]
    · have hlt : w >>> 7 < w := shiftRight7_lt w hw0
      simp only [varLenPack, if_neg hw0]
      rw [ih (w >>> 7) _ (by omega)]
      have hbuf : (buf <<< 8) ||| 0x80 = 256 * buf + 128 :=
        shiftLeft_or_small buf 0x80 (by norm_num)
      have hgr : vlqGroups w = vlqGroups (w >>> 7) ++ [0x80 ||| (w &&& 0x7f)] := by
        rw [vlqGroups, if_neg hw0]
      have hval : vlqVal w =
          (0x80 ||| (w &&& 0x7f)) * 256 ^ (vlqGroups (w >>> 7)).length + vlqVal (w >>> 7) := by
        rw [vlqVal, if_neg hw0]
      rw [hbuf, hgr, hval, List.length_append, List.length_singleton, or_0x80, and_0x7f]
      ring

/-- The unpacking loop peels the group bytes of `w` off the bottom of the
packed value, emitting them in big-endian group order, and then continues
with `b`. -/
lemma varLenUnpack_spec :
    ∀ (w b fuel : ℕ), (vlqGroups w).length ≤ fuel →
      varLenUnpack fuel (b * 256 ^ (vlqGroups w).length + vlqVal w) =
        vlqGroups w ++ varLenUnpack (fuel - (vlqGroups w).length) b := by
  intro w
  induction w using Nat.strong_induction_on with
  | _ w ih =>
    intro b fuel hfuel
    by_cases hw0 : w = 0
    · subst hw0
      simp [vlqGroups, vlqVal]
    · have hlt : w >>> 7 < w := shiftRight7_lt w hw0
      have hgr : vlqGroups w = vlqGroups (w >>> 7) ++ [0x80 ||| (w &&& 0x7f)] := by
        rw [vlqGroups, if_neg hw0]
      have hval : vlqVal w =
          (0x80 ||| (w &&& 0x7f)) * 256 ^ (vlqGroups (w >>> 7)).length + vlqVal (w >>> 7) := by
        rw [vlqVal, if_neg hw0]
      set g := (vlqGroups (w >>> 7)).length with hg
      have hglen : (vlqGroups w).length = g + 1 := by
        rw [hgr, List.length_append, List.length_singleton]
      set C := b * 256 + (128 + w % 128) with hC
      have hBC : b * 256 ^ (vlqGroups w).length + vlqVal w =
          C * 256 ^ g + vlqVal (w >>> 7) := by
        rw [hglen, hval, hC, or_0x80]
        ring
      rw [hBC, ih (w >>> 7) hlt C fuel (by omega)]
      have hrem : 1 ≤ fuel - g := by omega
      obtain ⟨f, hf⟩ : ∃ f, fuel - g = f + 1 := ⟨fuel - g - 1, by omega⟩
      rw [hf]
      have hr : 128 + w % 128 < 256 := by
        have := Nat.mod_lt w (y := 128) (by norm_num)
        omega
      have hC255 : C &&& 0xFF = 128 + w % 128 := by
        rw [and_0xff, hC]
        omega
      have hC128 : C &&& 0x80 ≠ 0 := by
        rw [and_0x80_ne_zero, hC]
        have hm : w % 128 < 128 := Nat.mod_lt w (by norm_num)
        omega
      have hC8 : C >>> 8 = b := by
        rw [shiftRight_8, hC]
        omega
      simp only [varLenUnpack, if_pos hC128, hC255, hC8]
      have hf' : fuel - (g + 1) = f := by omega
      rw [hglen, hgr, or_0x80, List.append_assoc, List.singleton_append, hf']

lemma varLenUnpack_single (fuel b : ℕ) (hb : b < 128) (hfuel : 1 ≤ fuel) :
    varLenUnpack fuel b = [b] := by
  obtain ⟨f, rfl⟩ : ∃ f, fuel = f + 1 := ⟨fuel - 1, by omega⟩
  have hb' : b < 2 ^ 7 := lt_of_lt_of_eq hb (by norm_num)
  have hbit : b &&& (0x80 : ℕ) = 0 := by
    calc b &&& (0x80 : ℕ) = b &&& 2 ^ 7 := by norm_num
    _ = (b.testBit 7).toNat * 2 ^ 7 := Nat.and_two_pow b 7
    _ = 0 := by rw [Nat.testBit_eq_false_of_lt hb']; rfl
  have hcond : ¬(b &&& (0x80 : ℕ) ≠ 0) := by rw [hbit]; simp
  simp only [varLenUnpack, if_neg hcond, and_0xff]
  rw [Nat.mod_eq_of_lt (by omega)]

lemma vlqGroups_length_le_val : ∀ w : ℕ, (vlqGroups w).length ≤ vlqVal w := by
  intro w
  induction w using Nat.strong_induction_on with
  | _ w ih =>
    by_cases hw0 : w = 0
    · subst hw0
      simp [vlqGroups, vlqVal]
    · have hlt : w >>> 7 < w := shiftRight7_lt w hw0
      have h1 := ih (w >>> 7) hlt
      rw [vlqGroups, if_neg hw0, vlqVal, if_neg hw0, List.length_append,
        List.length_singleton, or_0x80]
      have h2 : 1 ≤ 256 ^ (vlqGroups (w >>> 7)).length := Nat.one_le_pow _ _ (by norm_num)
      have h3 : 128 ≤ 128 + w % 128 := by omega
      nlinarith

/-- The source's `var_len` produces exactly the specification's layout. -/
lemma var_len_eq_vlqSpec (v : ℕ) : var_len v = vlqSpec v := by
  unfold var_len vlqSpec
  have hw : v >>> 7 ≤ v + 1 := by
    rw [shiftRight_7]
    have := Nat.div_le_self v 128
    omega
  rw [varLenPack_spec (v + 1) (v >>> 7) (v &&& 0x7f) hw]
  have hglen := vlqGroups_length_le_val (v >>> 7)
  have hb0 : v &&& 0x7f < 128 := by
    rw [and_0x7f]
    exact Nat.mod_lt v (by norm_num)
  have hfuel : (vlqGroups (v >>> 7)).length ≤
      (v &&& 0x7f) * 256 ^ (vlqGroups (v >>> 7)).length + vlqVal (v >>> 7) + 1 := by
    omega
  rw [varLenUnpack_spec (v >>> 7) (v &&& 0x7f) _ hfuel]
  rw [varLenUnpack_single _ (v &&& 0x7f) hb0 (by omega)]

/-- Big-endian 7-bit decoding of the group list. -/
lemma vlqGroups_decode :
    ∀ w acc : ℕ, (vlqGroups w).foldl (fun acc b => acc * 128 + b % 128) acc =
      acc * 128 ^ (vlqGroups w).length + w := by
  intro w
  induction w using Nat.strong_induction_on with
  | _ w ih =>
    intro acc
    by_cases hw0 : w = 0
    · subst hw0
      simp [vlqGroups]
    · have hlt : w >>> 7 < w := shiftRight7_lt w hw0
      rw [vlqGroups, if_neg hw0, List.foldl_append, ih (w >>> 7) hlt acc,
        List.length_append, List.length_singleton]
      simp only [List.foldl_cons, List.foldl_nil]
      rw [or_0x80, shiftRight_7]
      have hmod : (128 + w % 128) % 128 = w % 128 := by omega
      rw [hmod, pow_succ]
      have := Nat.div_add_mod w 128
      ring_nf
      omega

lemma vlqGroups_high_bit : ∀ w : ℕ, ∀ b ∈ vlqGroups w, 128 ≤ b := by
  intro w
  induction w using Nat.strong_induction_on with
  | _ w ih =>
    intro b hb
    by_cases hw0 : w = 0
    · subst hw0
      simp [vlqGroups] at hb
    · have hlt : w >>> 7 < w := shiftRight7_lt w hw0
      rw [vlqGroups, if_neg hw0] at hb
      rcases List.mem_append.mp hb with h | h
      · exact ih (w >>> 7) hlt b h
      · rw [List.mem_singleton] at h
        rw [h, or_0x80]
        omega

end Gazouilli

/-- Claim C6: `var_len` encodes an integer 7 bits per byte in big-endian
group order with the high bit set on every byte except the last (which is
`value &&& 0x7f`): it equals the specification layout `vlqSpec`, decoding
the 7-bit payloads big-endian recovers the value, and the four reference
vectors hold. -/
theorem var_len_seven_bit_big_endian :
    (∀ value : ℕ, var_len value = vlqSpec value) ∧
    (∀ value : ℕ, (var_len value).foldl (fun acc b => acc * 128 + b % 128) 0 = value) ∧
    (∀ value : ℕ, ∀ b ∈ (var_len value).dropLast, 128 ≤ b) ∧
    (∀ value : ℕ, (var_len value).getLast? = some (value &&& 0x7f)) ∧
    var_len 0 = [0x00] ∧ var_len 127 = [0x7F] ∧
    var_len 128 = [0x81, 0x00] ∧ var_len 16383 = [0xFF, 0x7F] := by
  have hspec := var_len_eq_vlqSpec
  refine ⟨hspec, ?_, ?_, ?_, by decide, by decide, by decide, by decide⟩
  · intro value
    rw [hspec, vlqSpec, List.foldl_append]
    rw [vlqGroups_decode (value >>> 7) 0]
    simp only [List.foldl_cons, List.foldl_nil, zero_mul, zero_add]
    rw [and_0x7f, shiftRight_7]
    have hmod : value % 128 % 128 = value % 128 := by omega
    rw [hmod]
    omega
  · intro value b hb
    rw [hspec, vlqSpec, List.dropLast_concat] at hb
    exact vlqGroups_high_bit _ b hb
  · intro value
    rw [hspec, vlqSpec, List.getLast?_concat]

/-- Claim C6, witness: the first byte of the encoding of 16383 has its
continuation bit set. -/
theorem var_len_seven_bit_big_endian_witness :
    128 ≤ 0xFF ∧ (0xFF : ℕ) ∈ (var_len 16383).dropLast :=
  ⟨var_len_seven_bit_big_endian.2.2.1 16383 0xFF (by decide), by decide⟩
